import Mathlib

/-!
Verification of the HubGuard claim-verification pipeline.

This file gives a shallow embedding, in Lean 4, of the algorithmic core of
the repository: the gatekeeper pre-filter (src/mastra/tools/gatekeeperTool.ts,
fuzzy-matching variant), the document index (src/mastra/tools/ragSearchTool.ts),
the evidence-source tools and the verification log (exa / youtube / learning
tools).  JavaScript strings are modelled as Lean `String`, JS numbers as `Nat`,
`Int` or `ℚ` as appropriate, filesystem and network effects as explicit
`Except`-valued parameters, and the one unbounded loop (`chunkText`) by a
fuel-indexed step function returning `none` when the fuel runs out.
-/

set_option maxRecDepth 8000

namespace HubGuard

/-! ## Basic string utilities (JS semantics) -/

/-- Model of JS `String.prototype.toLowerCase` (ASCII case mapping). -/
def jsToLower (s : String) : String := String.mk (s.data.map Char.toLower)

/-- Boolean prefix test on character lists. -/
def listPrefixOf : List Char → List Char → Bool
  | [], _ => true
  | _ :: _, [] => false
  | a :: as, b :: bs => a = b && listPrefixOf as bs

/-- Does `sub` occur (contiguously) somewhere inside `l`? -/
def listHasInfixAux (sub : List Char) : List Char → Bool
  | [] => listPrefixOf sub []
  | c :: t => listPrefixOf sub (c :: t) || listHasInfixAux sub t

/-- Model of JS `s.includes(sub)`: `sub` is a contiguous substring of `s`. -/
def strIncludes (s sub : String) : Bool := listHasInfixAux sub.data s.data

/-- Accumulator-based splitter: maximal non-whitespace runs, left to right
(`cur` holds the current run reversed). -/
def wsTokensAux : List Char → List Char → List String
  | [], cur => if cur.isEmpty then [] else [String.mk cur.reverse]
  | c :: rest, cur =>
    if c.isWhitespace then
      if cur.isEmpty then wsTokensAux rest []
      else String.mk cur.reverse :: wsTokensAux rest []
    else wsTokensAux rest (c :: cur)

/-- Whitespace tokenization dropping empty tokens: models
`s.split(/\s+/).filter(w => w.length > 0)` (as used by the gatekeeper,
which also trims first; trimming is absorbed by dropping empty tokens). -/
def wsTokens (s : String) : List String := wsTokensAux s.data []

/-! ## Gatekeeper (src/mastra/tools/gatekeeperTool.ts, fuzzy variant) -/

/-- The fixed casual-word list `CASUAL_WORDS` from the source. -/
def CASUAL_WORDS : List String :=
  ["hi", "hello", "hey", "thanks", "thank", "ok", "okay", "bot", "bye",
   "good", "nice", "cool", "yes", "no", "maybe", "sure", "great", "awesome",
   "lol", "haha", "hmm", "oh", "ah", "wow"]

/-- The fixed panic-keyword list `PANIC_KEYWORDS` from the source. -/
def PANIC_KEYWORDS : List String :=
  ["postponed", "postpone", "exam", "exams", "syllabus", "leaked", "leak",
   "cancel", "cancelled", "canceled", "holiday", "holidays", "notice",
   "timetable", "schedule", "fake", "true?", "is it true", "confirm",
   "rumor", "rumour", "official", "circular", "announcement", "deadline",
   "extended", "extension", "results", "result", "marks", "grade", "grades",
   "revaluation", "supplementary", "backlog", "attendance", "semester",
   "fee", "fees", "admission", "placement", "internship", "hostel", "mess",
   "library", "lab", "practical", "viva", "project", "thesis",
   "dissertation", "convocation", "degree", "certificate", "transcript",
   "migration", "transfer", "re-exam", "reexam", "compartment", "detained",
   "suspended", "expelled", "rusticated"]

/-- One inner sweep of the Levenshtein dynamic-programming row update
(`levenshteinDistance` in the source fills `matrix[i][j]` for `j = 1..`,
where `diag = matrix[i-1][j-1]`, `up = matrix[i-1][j]`, `left = matrix[i][j-1]`,
and the cell is `diag` when the characters agree and
`1 + min diag (min left up)` otherwise). -/
def levRowAux (bc : Char) : List Char → List Nat → Nat → Nat → List Nat
  | [], _, _, _ => []
  | _ :: _, [], _, _ => []
  | ac :: as, up :: ps, diag, left =>
    let cur := if ac = bc then diag else 1 + min diag (min left up)
    cur :: levRowAux bc as ps up cur

/-- Build matrix row `i` from row `i-1`; the leading cell is `matrix[i][0] = i`,
obtained as `prev[0] + 1`. -/
def levStepRow (a : List Char) (prev : List Nat) (bc : Char) : List Nat :=
  match prev with
  | [] => []
  | p0 :: ps => (p0 + 1) :: levRowAux bc a ps p0 (p0 + 1)

/-- Model of the source's `levenshteinDistance(a, b)`: the classic
dynamic-programming Levenshtein matrix (insert/delete/substitute each cost 1),
filled row by row over the characters of `b`, returning
`matrix[b.length][a.length]`. -/
def levenshteinDistance (aStr bStr : String) : Nat :=
  let a := aStr.data
  let row0 := List.range (a.length + 1)
  (bStr.data.foldl (levStepRow a) row0).getLastD 0

/-- The Levenshtein matrix recurrence exactly as the source writes it:
`matrix[i][0] = i`, `matrix[0][j] = j`, and `matrix[i][j]` is
`matrix[i-1][j-1]` when `b.charAt(i-1) = a.charAt(j-1)` and otherwise
`min(matrix[i-1][j-1] + 1, matrix[i][j-1] + 1, matrix[i-1][j] + 1)`.
Used to prove that the row-based `levenshteinDistance` computes this
matrix. -/
def levCell (a b : List Char) : Nat → Nat → Nat
  | 0, j => j
  | i + 1, 0 => i + 1
  | i + 1, j + 1 =>
    if b.getD i ' ' = a.getD j ' ' then levCell a b i j
    else 1 + min (levCell a b i j) (min (levCell a b (i + 1) j) (levCell a b i (j + 1)))
termination_by i j => i + j

/-- The textbook Levenshtein edit distance (unit-cost insert, delete,
substitute), by structural recursion on the first characters.  This is the
specification against which the source's dynamic program is verified. -/
def levRec : List Char → List Char → Nat
  | [], v => v.length
  | u, [] => u.length
  | x :: u, y :: v =>
    if x = y then levRec u v
    else 1 + min (levRec u v) (min (levRec (x :: u) v) (levRec u (y :: v)))
termination_by u v => u.length + v.length

/-- Model of the source's `fuzzyMatchKeyword(word, keyword, maxDistance = 2)`:
exact match, then containment either direction, then (both lengths at least 4)
edit distance at most `min maxDistance ⌊0.3 * keyword.length⌋`; the floor of
`0.3 * n` is modelled exactly as `3 * n / 10` in `Nat`. -/
def fuzzyMatchKeyword (word keyword : String) (maxDistance : Nat) : Bool :=
  if word = keyword then true
  else if strIncludes word keyword || strIncludes keyword word then true
  else if 4 ≤ word.length ∧ 4 ≤ keyword.length then
    decide (levenshteinDistance word keyword ≤ min maxDistance (3 * keyword.length / 10))
  else false

/-- Priority levels of the gatekeeper output schema. -/
inductive Priority where
  | high
  | medium
  | low
  | skip
deriving DecidableEq, Repr

/-- Input record of the gatekeeper tool (`message`, `caption`, flags). -/
structure GatekeeperInput where
  message : String
  caption : String
  hasPhoto : Bool
  hasDocument : Bool
  isForwarded : Bool

/-- Output record of the gatekeeper tool. -/
structure GatekeeperDecision where
  shouldProcess : Bool
  reason : String
  detectedKeywords : List String
  priority : Priority
deriving DecidableEq, Repr

/-- The tokenization performed by `execute`: lower-case the concatenation of
message and caption (joined by one space, as the template literal does),
split on whitespace, drop empty tokens. -/
def analyzeWords (ctx : GatekeeperInput) : List String :=
  wsTokens (jsToLower (ctx.message ++ " " ++ ctx.caption))

/-- The keyword-collection loop of `execute`: every word is matched against
every panic keyword with `fuzzyMatchKeyword`; matched keywords are pushed in
first-encounter order with duplicates suppressed. -/
def collectKeywords (words : List String) : List String :=
  words.foldl (fun acc word =>
    PANIC_KEYWORDS.foldl (fun acc2 keyword =>
      if fuzzyMatchKeyword word (jsToLower keyword) 2 && !(acc2.contains keyword)
      then acc2 ++ [keyword] else acc2) acc) []

/-- Model of the gatekeeper's `execute`: media, forwarded, casual-short,
panic-keyword and neutral branches in source order. -/
def classify (ctx : GatekeeperInput) : GatekeeperDecision :=
  let words := analyzeWords ctx
  if ctx.hasPhoto || ctx.hasDocument then
    ⟨true, "Message contains media (potential fake document)", [], Priority.high⟩
  else if ctx.isForwarded then
    ⟨true, "Forwarded message (potential rumor)", [], Priority.medium⟩
  else if words.length ≤ 3 && words.all (fun w => CASUAL_WORDS.any (fun c => strIncludes w c)) then
    ⟨false, "Casual greeting/chat", [], Priority.skip⟩
  else
    let detected := collectKeywords words
    if detected.length > 0 then
      ⟨true, "Contains suspicious keywords: " ++ String.intercalate ", " detected,
       detected, Priority.high⟩
    else
      ⟨false, "Regular neutral message (no suspicious content)", [], Priority.skip⟩

/-! ## Document Index (src/mastra/tools/ragSearchTool.ts) -/

/-- Largest index `i ≤ pos` with `l[i] = c`, or `-1`: models
`text.lastIndexOf(c, pos)` for a one-character search string with
`0 ≤ pos < text.length` (the only way `chunkText` calls it). -/
def jsLastIndexOf (l : List Char) (c : Char) (pos : Nat) : Int :=
  match (((List.range (pos + 1)).filter (fun i => l.getD i ' ' = c ∧ i < l.length))).getLast? with
  | some i => (i : Int)
  | none => -1

/-- Model of JS `l.slice(start, stop)`: negative indices count from the end,
both are clamped to `[0, length]`, and an empty list results when the
(resolved) start is not before the stop. -/
def jsSlice (l : List Char) (start stop : Int) : List Char :=
  let len : Int := l.length
  let s := if start < 0 then max (len + start) 0 else min start len
  let e := if stop < 0 then max (len + stop) 0 else min stop len
  ((l.take e.toNat).drop s.toNat)

/-- Model of JS `String.prototype.trim` on a character list. -/
def trimChars (l : List Char) : List Char :=
  ((l.dropWhile Char.isWhitespace).reverse.dropWhile Char.isWhitespace).reverse

/-- The `chunkEnd` computed by one iteration of `chunkText`'s loop:
`end = min (start + chunkSize) text.length`, snapped back to just after the
latest sentence terminator or newline when that break point lies after
`start + chunkSize / 2` (encoded without division as
`2 * breakPoint > 2 * start + chunkSize`, exact for the rational
`chunkSize / 2` of the source). -/
def chunkEndOf (text : List Char) (chunkSize : Int) (start : Int) : Int :=
  let e : Int := min (start + chunkSize) (text.length : Int)
  if e < (text.length : Int) then
    let lastPeriod := jsLastIndexOf text '.' e.toNat
    let lastNewline := jsLastIndexOf text '\n' e.toNat
    let breakPoint := max lastPeriod lastNewline
    if 2 * breakPoint > 2 * start + chunkSize then breakPoint + 1 else e
  else e

/-- The `while (start < text.length)` loop of `chunkText`, run under
explicit fuel: each iteration pushes the trimmed slice
`text.slice(start, chunkEnd)` and continues from `chunkEnd - overlap`.
Running out of fuel yields `none` (meaning: the loop was still running). -/
def chunkLoop (text : List Char) (chunkSize overlap : Int) :
    Nat → Int → List (List Char) → Option (List (List Char))
  | 0, _, _ => none
  | fuel + 1, start, acc =>
    if start < (text.length : Int) then
      chunkLoop text chunkSize overlap fuel (chunkEndOf text chunkSize start - overlap)
        (acc ++ [trimChars (jsSlice text start (chunkEndOf text chunkSize start))])
    else
      some acc

/-- Model of the source's `chunkText(text, chunkSize = 500, overlap = 100)`,
with explicit fuel for the while loop; the final filter keeps chunks of
length strictly greater than 50, as the source does. -/
def chunkText (fuel : Nat) (text : String) (chunkSize : Int) (overlap : Int) :
    Option (List String) :=
  (chunkLoop text.data chunkSize overlap fuel 0 []).map
    (fun cs => (cs.filter (fun c => c.length > 50)).map String.mk)

/-- An exact nonnegative fraction with explicit numerator and denominator.
JS numbers are idealized as exact rationals; every fraction this model
builds has a positive denominator, and all comparisons are value
comparisons by cross-multiplication, so no normalization is needed.  (ℚ
itself is unusable in executable positions here because its arithmetic is
irreducible.) -/
structure Frac where
  num : Nat
  den : Nat
deriving DecidableEq, Repr

/-- The rational value of a fraction (used in theorem statements). -/
def Frac.val (x : Frac) : ℚ := (x.num : ℚ) / (x.den : ℚ)

/-- Value-based strict comparison by cross-multiplication. -/
def Frac.blt (x y : Frac) : Bool := decide (x.num * y.den < y.num * x.den)

/-- Value-based equality by cross-multiplication. -/
def Frac.beq (x y : Frac) : Bool := decide (x.num * y.den = y.num * x.den)

/-- Model of the source's `simpleTokenize`: lower-case, replace every
character outside `[A-Za-z0-9_]` and whitespace by a space, split on
whitespace, keep tokens of length strictly greater than 2. -/
def simpleTokenize (text : String) : List String :=
  (wsTokensAux ((text.data.map Char.toLower).map
    (fun c => if c.isAlphanum || c = '_' || c.isWhitespace then c else ' ')) []).filter
    (fun w => w.length > 2)

/-- Distinct tokens of a string, modelling `new Set(simpleTokenize(text))`. -/
def tokenSet (text : String) : List String := (simpleTokenize text).dedup

/-- Twice the raw `matchCount` of the source's `calculateSimilarity`: for
each distinct query token, 1 (scaled: 2) when it occurs verbatim in the
document token set, plus 0.5 (scaled: 1) for every document token related
to it by substring containment in either direction. -/
def matchCount2 (query document : String) : Nat :=
  let dset := tokenSet document
  ((tokenSet query).map (fun t =>
    (if dset.contains t then 2 else 0) +
      (dset.filter (fun d => strIncludes d t || strIncludes t d)).length)).sum

/-- Model of the source's `calculateSimilarity(query, document)`:
`matchCount / max (#distinct query tokens) 1`, kept as an exact fraction
(numerator and denominator both scaled by 2). -/
def calculateSimilarity (query document : String) : Frac :=
  ⟨matchCount2 query document, 2 * max (tokenSet query).length 1⟩

/-- One indexed chunk of the in-memory document index. -/
structure DocumentChunk where
  content : String
  source : String
  chunkIndex : Nat
deriving DecidableEq, Repr

/-- Insert `x` after every element whose score is at least `score x`
(so equal scores keep their original relative order). -/
def insertDescEnd (score : α → Frac) (x : α) : List α → List α
  | [] => [x]
  | y :: ys =>
    if (score y).blt (score x) then x :: y :: ys else y :: insertDescEnd score x ys

/-- Stable descending sort by score, modelling the ES2019+ stable
`Array.prototype.sort((a, b) => b.relevanceScore - a.relevanceScore)`. -/
def sortByScoreDesc (score : α → Frac) (l : List α) : List α :=
  l.foldl (fun acc x => insertDescEnd score x acc) []

/-- Round a fraction to 2 decimals, modelling `Math.round(x * 100) / 100`:
for `x = n / d` the result is `⌊(100 n / d) + 1/2⌋ / 100`, computed in `Nat`
as `(200 n + d) / (2 d)` over 100. -/
def roundTo2 (x : Frac) : Frac := ⟨(200 * x.num + x.den) / (2 * x.den), 100⟩

/-- One entry of the returned `results` array. -/
structure RagResult where
  content : String
  source : String
  relevanceScore : Frac
deriving DecidableEq, Repr

/-- Output record of the `rag-search` tool. -/
structure RagOutput where
  results : List RagResult
  totalDocuments : Nat
  hasRelevantResults : Bool
deriving DecidableEq, Repr

/-- The scored chunk list built by `execute` before sorting. -/
def scoreChunks (chunks : List DocumentChunk) (query : String) :
    List (DocumentChunk × Frac) :=
  chunks.map (fun c => (c, calculateSimilarity query c.content))

/-- Model of the query path of the `rag-search` tool's `execute`, given an
already-initialized index `chunks` (the lazy build reads the filesystem and
is out of this model's scope): empty index short-circuit, score every chunk,
stable sort descending, take the first `topK` (`context.topK || 3`, so a
passed `0` falls back to `3`), flag relevance from the unrounded top scores,
and round each returned score to 2 decimals. -/
def ragQuery (chunks : List DocumentChunk) (query : String) (topK : Nat) : RagOutput :=
  if chunks.length = 0 then
    ⟨[], 0, false⟩
  else
    let scored := scoreChunks chunks query
    let sorted := sortByScoreDesc Prod.snd scored
    let k := if topK = 0 then 3 else topK
    let top := sorted.take k
    ⟨top.map (fun p => ⟨p.1.content, p.1.source, roundTo2 p.2⟩),
     chunks.length,
     top.any (fun p => Frac.blt ⟨1, 10⟩ p.2)⟩

/-! ## Evidence sources (exa / university / youtube tools)

Environment configuration is modelled as an `Option String` API key, and each
network call as an `Except`-valued parameter: `Except.error` means the
corresponding JS call threw (the `try`/`catch` structure of the source is then
mirrored explicitly), `Except.ok` carries the delivered data.  A model
function whose result type is *not* wrapped in `Except` can never propagate
an exception to its caller. -/

/-- JS falsy-defaulting `a || d` for string-valued expressions: `undefined`
and the empty string both fall back to the default. -/
def jsOrElse (o : Option String) (d : String) : String :=
  match o with
  | none => d
  | some s => if s = "" then d else s

/-- Raw Exa search hit as delivered by `exa.searchAndContents`. -/
structure ExaRawResult where
  title : Option String
  url : Option String
  text : Option String
  publishedDate : Option String
  score : Option ℚ

/-- One entry of the `exa-web-search` output `results` array. -/
structure ExaResult where
  title : String
  url : String
  content : String
  publishedDate : Option String
  score : ℚ
deriving DecidableEq, Repr

/-- Output record of the `exa-web-search` tool. -/
structure ExaOutput where
  results : List ExaResult
  hasResults : Bool
  searchQuery : String
deriving DecidableEq, Repr

/-- Model of the `exa-web-search` tool's `execute`: missing `EXA_API_KEY`
returns the empty result; a throwing search call is caught and also returns
the empty result; otherwise each raw hit is normalized with JS falsy
defaults and the content truncated to 1500 characters.  (`numResults` and
`includeDomains` only shape the outgoing request, which is abstracted into
`response`.) -/
def exaSearchExecute (apiKey : Option String) (query : String)
    (response : Except String (List ExaRawResult)) : ExaOutput :=
  match apiKey with
  | none => ⟨[], false, query⟩
  | some _ =>
    match response with
    | Except.error _ => ⟨[], false, query⟩
    | Except.ok rs =>
      let results := rs.map (fun r =>
        ⟨jsOrElse r.title "No title", jsOrElse r.url "",
         jsOrElse (r.text.map (fun t => String.mk (t.data.take 1500))) "No content available",
         r.publishedDate, r.score.getD 0⟩)
      ⟨results, decide (results.length > 0), query⟩

/-- The `university` input enum of the `university-web-search` tool. -/
inductive UniversityKind where
  | mumbai
  | general
  | ugc
deriving DecidableEq, Repr

/-- The `officialDomains` table of the `university-web-search` tool. -/
def officialDomains : UniversityKind → List String
  | UniversityKind.mumbai => ["mu.ac.in", "mum.digitaluniversity.ac", "mkuniversity.ac.in"]
  | UniversityKind.ugc => ["ugc.ac.in", "education.gov.in", "aicte-india.org"]
  | UniversityKind.general =>
    ["mu.ac.in", "ugc.ac.in", "education.gov.in", "aicte-india.org",
     "mum.digitaluniversity.ac"]

/-- Raw university-search hit; `hostname` models `new URL(url).hostname`
(a URL whose parsing throws surfaces as `Except.error` for the whole
response, matching the enclosing `try`/`catch`). -/
structure UniRawResult where
  title : Option String
  url : Option String
  text : Option String
  hostname : String

/-- One entry of the `university-web-search` output `results` array. -/
structure UniResult where
  title : String
  url : String
  content : String
  source : String
  isOfficial : Bool
deriving DecidableEq, Repr

/-- Output record of the `university-web-search` tool. -/
structure UniOutput where
  results : List UniResult
  hasOfficialInfo : Bool
  sourcesChecked : List String
deriving DecidableEq, Repr

/-- Model of the `university-web-search` tool's `execute`: missing
`EXA_API_KEY` returns the empty result with `sourcesChecked = []`; a
throwing search returns the empty result with the domain list; otherwise
hits are normalized, flagged official by domain containment, and
`hasOfficialInfo` requires an official hit with more than 100 characters of
content. -/
def universitySearchExecute (apiKey : Option String) (university : UniversityKind)
    (response : Except String (List UniRawResult)) : UniOutput :=
  match apiKey with
  | none => ⟨[], false, []⟩
  | some _ =>
    let domains := officialDomains university
    match response with
    | Except.error _ => ⟨[], false, domains⟩
    | Except.ok rs =>
      let results := rs.map (fun r =>
        let isOfficial := domains.any (fun d => strIncludes r.hostname d)
        (⟨jsOrElse r.title "No title", jsOrElse r.url "",
          jsOrElse (r.text.map (fun t => String.mk (t.data.take 1200))) "No content",
          r.hostname, isOfficial⟩ : UniResult))
      ⟨results, results.any (fun r => r.isOfficial && decide (r.content.length > 100)), domains⟩

/-- YouTube Data API snippet fields used by the tool. -/
structure YoutubeSnippet where
  title : String
  description : String
  channelTitle : String

/-- Output record of the `youtube-verification` tool. -/
structure YoutubeOutput where
  isValid : Bool
  videoTitle : String
  channelName : String
  summary : String
  verdict : String
  transcriptSnippet : Option String
deriving DecidableEq, Repr

/-- Model of the `youtube-verification` tool's `execute`.  The missing-key
check `if (!apiKey) throw new Error(...)` sits *before* the `try` block, so
it escapes the tool as an exception (`Except.error`); everything inside the
`try` is caught and converted to a `HOAX`-verdict record.  `videoId` models
the regex extraction from the URL, `apiItems` the metadata fetch, and
`transcript` the already-joined transcript text (truncated to 5000
characters as in the source). -/
def youtubeExecute (apiKey : Option String) (videoId : Option String)
    (apiItems : Except String (List YoutubeSnippet))
    (transcript : Except String String) : Except String YoutubeOutput :=
  match apiKey with
  | none => Except.error "YOUTUBE_API_KEY is missing in .env file"
  | some _ =>
    Except.ok <|
      match videoId with
      | none =>
        ⟨false, "Unknown", "Unknown", "Invalid YouTube URL provided.", "HOAX", none⟩
      | some _ =>
        match apiItems with
        | Except.error e =>
          ⟨false, "Error", "Error", "Failed to verify video: " ++ e, "HOAX", none⟩
        | Except.ok [] =>
          ⟨false, "Video Not Found", "Unknown", "Video does not exist or is private.",
           "HOAX", none⟩
        | Except.ok (sn :: _) =>
          let transcriptText :=
            match transcript with
            | Except.ok t => String.mk (t.data.take 5000)
            | Except.error _ =>
              "Transcript not available. Verifying based on title and description only."
          ⟨true, sn.title, sn.channelTitle,
           "Video content fetched. Title: \"" ++ sn.title ++ "\". Channel: \"" ++
             sn.channelTitle ++ "\".",
           "PENDING_AGENT_REVIEW",
           some ("\n      VIDEO TITLE: " ++ sn.title ++ "\n      CHANNEL: " ++
             sn.channelTitle ++ "\n      DESCRIPTION: " ++ sn.description ++
             "\n      TRANSCRIPT START: " ++ transcriptText ++ "\n      ")⟩

/-! ## Verification log (log-verification tool) -/

/-- Verdict enum of the learning log. -/
inductive Verdict where
  | HOAX
  | VERIFIED
  | UNCERTAIN
deriving DecidableEq, Repr

/-- String form of a verdict, as serialized by the tool. -/
def Verdict.toStr : Verdict → String
  | Verdict.HOAX => "HOAX"
  | Verdict.VERIFIED => "VERIFIED"
  | Verdict.UNCERTAIN => "UNCERTAIN"

/-- One persisted learning-log entry. -/
structure VerificationLogEntry where
  timestamp : String
  claim : String
  verdict : Verdict
  sources : List String
  confidence : ℚ
  wasCorrect : Option Bool
  feedback : Option String
deriving DecidableEq, Repr

/-- Model of `loadLearningLog`: an absent file (`Except.ok none`) or a
throwing read/parse (`Except.error`) both yield the empty log — the
exception is caught inside the function. -/
def loadLearningLog (disk : Except String (Option (List VerificationLogEntry))) :
    List VerificationLogEntry :=
  match disk with
  | Except.error _ => []
  | Except.ok none => []
  | Except.ok (some logs) => logs

/-- Model of `saveLearningLog`: a throwing write (`Except.error`) is caught
and swallowed; the function always returns. -/
def saveLearningLog (writeResult : Except String Unit) : Unit :=
  match writeResult with
  | Except.error _ => ()
  | Except.ok u => u

/-- Model of JS `s.split(/\s+/)` with no post-filtering, as used by the
learning-log similarity: maximal non-whitespace segments, with an empty
leading (trailing) token when the string starts (ends) with whitespace, and
`[""]` for the empty string. -/
def jsWsSplit (s : String) : List String :=
  match s.data with
  | [] => [""]
  | c :: rest =>
    let core := wsTokensAux (c :: rest) []
    let withHead := if c.isWhitespace then "" :: core else core
    if ((c :: rest).getLastD 'x').isWhitespace then withHead ++ [""] else withHead

/-- Model of the learning log's `calculateSimilarity(str1, str2)`:
common-token count divided by the larger token-set size (JS `Set`s modelled
as deduplicated token lists, the value kept as an exact fraction). -/
def logCalculateSimilarity (str1 str2 : String) : Frac :=
  let w1 := (jsWsSplit str1).dedup
  let w2 := (jsWsSplit str2).dedup
  ⟨(w1.filter (fun w => w2.contains w)).length, max w1.length w2.length⟩

/-- One reported similar past case. -/
structure SimilarCase where
  claim : String
  verdict : String
  wasCorrect : Option Bool
deriving DecidableEq, Repr

/-- Output record of the `log-verification` tool. -/
structure LogVerificationOutput where
  logged : Bool
  similarPastCases : List SimilarCase
deriving DecidableEq, Repr

/-- Model of the `log-verification` tool's `execute`: load the log (fault
tolerant), append the new entry, persist (fault tolerant), then report the
last five previously logged claims whose lower-cased similarity to the new
claim exceeds 0.5 (`slice(-5)` keeps chronological order; the new entry is
excluded by its timestamp). `now` models `new Date().toISOString()`. -/
def logVerificationExecute (disk : Except String (Option (List VerificationLogEntry)))
    (writeResult : Except String Unit) (now claim : String) (verdict : Verdict)
    (sources : List String) (confidence : ℚ) : LogVerificationOutput :=
  let logs := loadLearningLog disk ++
    [⟨now, claim, verdict, sources, confidence, none, none⟩]
  let _ := saveLearningLog writeResult
  let filtered := logs.filter (fun log =>
    Frac.blt ⟨1, 2⟩ (logCalculateSimilarity (jsToLower claim) (jsToLower log.claim)) &&
      log.timestamp != now)
  let similar := (filtered.drop (filtered.length - 5)).map
    (fun log => (⟨log.claim, log.verdict.toStr, log.wasCorrect⟩ : SimilarCase))
  ⟨true, similar⟩

/-- The claim's `findSimilar` contract, written from the spec: among the
*prior* entries, keep those whose lower-cased token-set similarity to the
new claim exceeds 0.5, keep the most recent five (last five in log order),
in recency (log) order, and project each to (claim, verdict, wasCorrect). -/
def findSimilarSpec (prior : List VerificationLogEntry) (claim : String) :
    List SimilarCase :=
  let matching := prior.filter (fun log =>
    decide ((1 : ℚ) / 2
      < (logCalculateSimilarity (jsToLower claim) (jsToLower log.claim)).val))
  (matching.drop (matching.length - 5)).map
    (fun log => ⟨log.claim, log.verdict.toStr, log.wasCorrect⟩)

/-! ## Sanity checks on concrete inputs -/

example : calculateSimilarity "alpha beta" "alpha" = ⟨3, 4⟩ := by decide

example : calculateSimilarity "alpha" "alpha beta" = ⟨3, 2⟩ := by decide

example : chunkText 3 (String.mk (List.replicate 60 'a')) 500 100 = none := by decide

example : chunkText 5 "" 500 100 = some [] := by decide

example : jsWsSplit " a b " = ["", "a", "b", ""] := by decide

example : jsWsSplit "" = [""] := by decide

example :
    logCalculateSimilarity "exam postponed to december" "exams postponed to dec 5th"
      = ⟨2, 5⟩ := by decide

example :
    (logVerificationExecute (Except.ok (some [⟨"t1", "exam postponed now", Verdict.HOAX, [], 80, none, none⟩]))
      (Except.ok ()) "t2" "exam postponed today" Verdict.HOAX [] 90).similarPastCases =
      [⟨"exam postponed now", "HOAX", none⟩] := by decide

example :
    (ragQuery [⟨"exam postponed to dec 5", "a.txt", 0⟩] "is exam postponed" 3).hasRelevantResults
      = true := by decide

example : levenshteinDistance "kitten" "sitting" = 3 := by decide

example : levenshteinDistance "exm" "exam" = 1 := by decide

example : (classify ⟨"hi", "", false, false, false⟩).priority = Priority.skip := by decide

example : (classify ⟨"hings", "", false, false, false⟩).reason = "Casual greeting/chat" := by
  decide

example : (classify ⟨"exam postponed?", "", false, false, false⟩).shouldProcess = true := by
  decide

/-! ## Substring bridge lemmas -/

theorem listPrefixOf_iff : ∀ u w : List Char, listPrefixOf u w = true ↔ u <+: w
  | [], w => by simp [listPrefixOf]
  | a :: as, [] => by simp [listPrefixOf]
  | a :: as, b :: bs => by
    simp [listPrefixOf, listPrefixOf_iff as bs, List.cons_prefix_cons]

theorem listHasInfixAux_iff : ∀ (w u : List Char), listHasInfixAux u w = true ↔ u <:+: w
  | [], u => by cases u <;> simp [listHasInfixAux, listPrefixOf]
  | c :: t, u => by
    simp [listHasInfixAux, listPrefixOf_iff, listHasInfixAux_iff t u,
      List.infix_cons_iff]

theorem strIncludes_iff {s sub : String} : strIncludes s sub = true ↔ sub.data <:+: s.data :=
  listHasInfixAux_iff s.data sub.data

/-! ## The row-based distance computes the Levenshtein matrix -/

theorem levCell_zero (a b : List Char) (j : Nat) : levCell a b 0 j = j := by
  simp [levCell]

theorem levCell_zero_right (a b : List Char) (i : Nat) : levCell a b i 0 = i := by
  cases i with
  | zero => simp [levCell]
  | succ n => simp [levCell]

theorem levRowAux_spec (a b : List Char) (i : Nat) :
    ∀ (n j : Nat), n = a.length - j → j ≤ a.length →
      levRowAux (b.getD i ' ') (a.drop j)
          ((List.range' (j + 1) n).map (levCell a b i))
          (levCell a b i j) (levCell a b (i + 1) j)
        = (List.range' (j + 1) n).map (levCell a b (i + 1)) := by
  intro n
  induction n with
  | zero =>
    intro j hn hj
    have hj' : j = a.length := by omega
    subst hj'
    simp [levRowAux, List.drop_length]
  | succ m ih =>
    intro j hn hj
    have hjlt : j < a.length := by omega
    rw [List.drop_eq_getElem_cons hjlt, List.range'_succ, List.map_cons, levRowAux]
    have hcur : (if a[j] = b.getD i ' ' then levCell a b i j
        else 1 + min (levCell a b i j)
          (min (levCell a b (i + 1) j) (levCell a b i (j + 1))))
        = levCell a b (i + 1) (j + 1) := by
      conv_rhs => rw [levCell]
      rw [List.getD_eq_getElem a ' ' hjlt]
      rcases eq_or_ne (a[j]) (b.getD i ' ') with h | h
      · rw [if_pos h, if_pos h.symm]
      · rw [if_neg h, if_neg (Ne.symm h)]
    rw [hcur]
    have htail := ih (j + 1) (by omega) (by omega)
    rw [htail]
    rfl

theorem levStepRow_spec (a b : List Char) (i : Nat) :
    levStepRow a ((List.range (a.length + 1)).map (levCell a b i)) (b.getD i ' ')
      = (List.range (a.length + 1)).map (levCell a b (i + 1)) := by
  have hmain := levRowAux_spec a b i a.length 0 (by omega) (by omega)
  simp only [List.drop_zero, Nat.sub_zero, Nat.zero_add, levCell_zero_right] at hmain
  have hr : List.range (a.length + 1) = 0 :: List.range' 1 a.length := by
    rw [List.range_eq_range', List.range'_succ]
  rw [hr, List.map_cons, List.map_cons]
  simp only [levStepRow, levCell_zero_right]
  rw [hmain]

theorem foldl_levStepRow (a b : List Char) :
    ∀ i, i ≤ b.length →
      ((b.take i).foldl (levStepRow a) (List.range (a.length + 1)))
        = (List.range (a.length + 1)).map (levCell a b i) := by
  intro i
  induction i with
  | zero =>
    intro _
    rw [List.take_zero, List.foldl_nil]
    have hmap : (List.range (a.length + 1)).map (levCell a b 0)
        = List.range (a.length + 1) := by
      rw [List.map_congr_left (fun j _ => levCell_zero a b j), List.map_id']
    rw [hmap]
  | succ n ih =>
    intro hle
    have hn : n < b.length := by omega
    rw [List.take_succ, List.getElem?_eq_getElem hn]
    simp only [Option.toList_some]
    rw [List.foldl_append, ih (by omega), List.foldl_cons, List.foldl_nil]
    rw [← List.getD_eq_getElem b ' ' hn]
    exact levStepRow_spec a b n

/-- The fold of `levStepRow`, as used by `levenshteinDistance`, computes the
source's Levenshtein matrix: the result is `matrix[b.length][a.length]`. -/
theorem levenshteinDistance_eq_levCell (aStr bStr : String) :
    levenshteinDistance aStr bStr
      = levCell aStr.data bStr.data bStr.data.length aStr.data.length := by
  unfold levenshteinDistance
  dsimp only
  have h := foldl_levStepRow aStr.data bStr.data bStr.data.length (le_refl _)
  rw [List.take_length] at h
  rw [h]
  rw [List.range_succ, List.map_append, List.map_singleton, List.getLastD_concat]

/-! ## The dynamic program equals the textbook edit distance -/

theorem levRec_nil_left (v : List Char) : levRec [] v = v.length := by
  simp [levRec]

theorem levRec_nil_right (u : List Char) : levRec u [] = u.length := by
  cases u <;> simp [levRec]

theorem levRec_cons_cons (x y : Char) (u v : List Char) :
    levRec (x :: u) (y :: v)
      = if x = y then levRec u v
        else 1 + min (levRec u v) (min (levRec (x :: u) v) (levRec u (y :: v))) := by
  rw [levRec]

set_option maxHeartbeats 1000000 in
theorem levRec_snoc_aux : ∀ (n : Nat) (u v : List Char), u.length + v.length = n →
    ∀ (x y : Char), levRec (u ++ [x]) (v ++ [y])
      = if x = y then levRec u v
        else 1 + min (levRec u v) (min (levRec (u ++ [x]) v) (levRec u (v ++ [y]))) := by
  intro n
  induction n using Nat.strong_induction_on with
  | _ n ih =>
  intro u v hn x y
  cases u with
  | nil =>
    cases v with
    | nil =>
      simp only [List.nil_append]
      rw [levRec_cons_cons]
    | cons b v' =>
      have hIH := ih v'.length (by simp at hn; omega) [] v' (by simp) x y
      simp only [List.nil_append] at hIH ⊢
      simp only [List.cons_append]
      simp only [levRec_cons_cons]
      rw [hIH]
      simp only [levRec_nil_left, List.length_append, List.length_cons,
        List.length_nil, List.length_singleton]
      generalize levRec [x] v' = P
      by_cases hxb : x = b <;> by_cases hxy : x = y
      · simp only [if_pos hxb, if_pos hxy]
      · simp only [if_pos hxb, if_neg hxy]
        omega
      · simp only [if_neg hxb, if_pos hxy]
        omega
      · simp only [if_neg hxb, if_neg hxy]
  | cons a u' =>
    cases v with
    | nil =>
      have hIH := ih u'.length (by simp at hn; omega) u' [] (by simp) x y
      simp only [List.nil_append] at hIH ⊢
      simp only [List.cons_append]
      simp only [levRec_cons_cons]
      rw [hIH]
      simp only [levRec_nil_right, levRec_nil_left, List.length_append,
        List.length_cons, List.length_nil, List.length_singleton]
      generalize levRec u' [y] = Q
      by_cases hay : a = y <;> by_cases hxy : x = y
      · simp only [if_pos hay, if_pos hxy]
      · simp only [if_pos hay, if_neg hxy]
        omega
      · simp only [if_neg hay, if_pos hxy]
        omega
      · simp only [if_neg hay, if_neg hxy]
    | cons b v' =>
      have hIH1 := ih (u'.length + v'.length) (by simp at hn; omega) u' v' rfl x y
      have hIH2 := ih (u'.length + 1 + v'.length) (by simp at hn; omega)
        (a :: u') v' (by simp) x y
      have hIH3 := ih (u'.length + (v'.length + 1)) (by simp at hn; omega)
        u' (b :: v') (by simp) x y
      simp only [List.cons_append] at hIH2 hIH3 ⊢
      simp only [levRec_cons_cons]
      rw [hIH1, hIH2, hIH3]
      clear hIH1 hIH2 hIH3 hn
      generalize levRec u' v' = A
      generalize levRec (a :: u') v' = B
      generalize levRec u' (b :: v') = C
      generalize levRec (u' ++ [x]) v' = D
      generalize levRec u' (v' ++ [y]) = E
      generalize levRec (a :: (u' ++ [x])) v' = G
      generalize levRec (a :: u') (v' ++ [y]) = H
      generalize levRec (u' ++ [x]) (b :: v') = I
      generalize levRec u' (b :: (v' ++ [y])) = J
      by_cases hab : a = b <;> by_cases hxy : x = y
      · simp only [if_pos hab, if_pos hxy]
      · simp only [if_pos hab, if_neg hxy]
      · simp only [if_neg hab, if_pos hxy]
      · simp only [if_neg hab, if_neg hxy]
        simp only [min_add_add_left]
        ac_rfl

theorem levRec_snoc (u v : List Char) (x y : Char) :
    levRec (u ++ [x]) (v ++ [y])
      = if x = y then levRec u v
        else 1 + min (levRec u v) (min (levRec (u ++ [x]) v) (levRec u (v ++ [y]))) :=
  levRec_snoc_aux (u.length + v.length) u v rfl x y

theorem levRec_reverse_aux : ∀ (n : Nat) (u v : List Char), u.length + v.length = n →
    levRec u.reverse v.reverse = levRec u v := by
  intro n
  induction n using Nat.strong_induction_on with
  | _ n ih =>
  intro u v hn
  cases u with
  | nil =>
    simp [levRec_nil_left]
  | cons a u' =>
    cases v with
    | nil =>
      simp [levRec_nil_right]
    | cons b v' =>
      rw [List.reverse_cons, List.reverse_cons, levRec_snoc, levRec_cons_cons]
      rw [← List.reverse_cons a u', ← List.reverse_cons b v']
      rw [ih (u'.length + v'.length) (by simp at hn; omega) u' v' rfl]
      rw [ih (u'.length + 1 + v'.length) (by simp at hn; omega) (a :: u') v' (by simp)]
      rw [ih (u'.length + (v'.length + 1)) (by simp at hn; omega) u' (b :: v') (by simp)]

theorem levRec_reverse (u v : List Char) :
    levRec u.reverse v.reverse = levRec u v :=
  levRec_reverse_aux (u.length + v.length) u v rfl

theorem levCell_eq_levRec (a b : List Char) : ∀ (n i j : Nat), i + j = n →
    i ≤ b.length → j ≤ a.length →
    levCell a b i j = levRec ((a.take j).reverse) ((b.take i).reverse) := by
  intro n
  induction n using Nat.strong_induction_on with
  | _ n ih =>
  intro i j hn hi hj
  cases i with
  | zero =>
    rw [levCell_zero, List.take_zero, List.reverse_nil, levRec_nil_right,
      List.length_reverse, List.length_take]
    omega
  | succ i' =>
    cases j with
    | zero =>
      rw [levCell_zero_right, List.take_zero, List.reverse_nil, levRec_nil_left,
        List.length_reverse, List.length_take]
      omega
    | succ j' =>
      have hi' : i' < b.length := by omega
      have hj' : j' < a.length := by omega
      have hta : a.take (j' + 1) = a.take j' ++ [a[j']] := by
        rw [List.take_succ, List.getElem?_eq_getElem hj']
        rfl
      have htb : b.take (i' + 1) = b.take i' ++ [b[i']] := by
        rw [List.take_succ, List.getElem?_eq_getElem hi']
        rfl
      rw [hta, htb, List.reverse_append, List.reverse_append]
      simp only [List.reverse_singleton, List.singleton_append]
      rw [levRec_cons_cons]
      rw [levCell]
      rw [List.getD_eq_getElem a ' ' hj', List.getD_eq_getElem b ' ' hi']
      have e1 := ih (i' + j') (by omega) i' j' rfl (by omega) (by omega)
      have e2 := ih (i' + 1 + j') (by omega) (i' + 1) j' rfl (by omega) (by omega)
      have e3 := ih (i' + (j' + 1)) (by omega) i' (j' + 1) rfl (by omega) (by omega)
      rw [htb, List.reverse_append, List.reverse_singleton,
        List.singleton_append] at e2
      rw [hta, List.reverse_append, List.reverse_singleton,
        List.singleton_append] at e3
      rw [e1, e2, e3]
      by_cases h : b[i'] = a[j']
      · rw [if_pos h, if_pos h.symm]
      · rw [if_neg h, if_neg (fun hh => h hh.symm)]
        omega

/-- The source's row-by-row dynamic program computes exactly the textbook
Levenshtein edit distance (unit-cost insert, delete, substitute). -/
theorem levenshteinDistance_eq_levRec (aStr bStr : String) :
    levenshteinDistance aStr bStr = levRec aStr.data bStr.data := by
  rw [levenshteinDistance_eq_levCell]
  rw [levCell_eq_levRec aStr.data bStr.data
    (bStr.data.length + aStr.data.length) bStr.data.length aStr.data.length rfl
    (le_refl _) (le_refl _)]
  rw [List.take_length, List.take_length]
  exact levRec_reverse aStr.data bStr.data

/-! ## Gatekeeper theorems -/

/-- C7: for every input message, the gatekeeper decision has
`priority = skip` if and only if `shouldProcess = false`. -/
theorem classify_skip_iff_not_shouldProcess (ctx : GatekeeperInput) :
    (classify ctx).priority = Priority.skip ↔ (classify ctx).shouldProcess = false := by
  unfold classify
  dsimp only
  repeat' split
  all_goals simp

/-- C10: the gatekeeper never returns priority `low`, although the declared
output schema admits it. -/
theorem classify_priority_ne_low (ctx : GatekeeperInput) :
    (classify ctx).priority ≠ Priority.low := by
  unfold classify
  dsimp only
  repeat' split
  all_goals simp

/-- C3 (counterexample): for the casual-skip branch the code tests that each
token *contains* some casual-list entry, not that it is a substring of one:
the single-token message "hings" (not a substring of any casual entry, but
containing "hi") is classified casual-skip, refuting the claimed
"token is a substring of some entry" characterization. -/
theorem classify_casual_substring_counterexample :
    classify ⟨"hings", "", false, false, false⟩ =
        ⟨false, "Casual greeting/chat", [], Priority.skip⟩ ∧
      ¬ ∀ w ∈ analyzeWords ⟨"hings", "", false, false, false⟩,
          ∃ c ∈ CASUAL_WORDS, w.data <:+: c.data := by
  constructor
  · decide
  · decide

/-- C3 (amended): for every message with no photo, no document, not
forwarded, and at most 3 tokens, the gatekeeper returns the casual-skip
decision `⟨false, "Casual greeting/chat", [], skip⟩` if and only if every
token *contains* some entry of the fixed casual-word list as a substring. -/
theorem classify_casual_iff_contains (ctx : GatekeeperInput)
    (h1 : ctx.hasPhoto = false) (h2 : ctx.hasDocument = false)
    (h3 : ctx.isForwarded = false) (h4 : (analyzeWords ctx).length ≤ 3) :
    classify ctx = ⟨false, "Casual greeting/chat", [], Priority.skip⟩ ↔
      ∀ w ∈ analyzeWords ctx, ∃ c ∈ CASUAL_WORDS, c.data <:+: w.data := by
  have hBool : ((analyzeWords ctx).all fun w => CASUAL_WORDS.any fun c => strIncludes w c) = true
      ↔ ∀ w ∈ analyzeWords ctx, ∃ c ∈ CASUAL_WORDS, c.data <:+: w.data := by
    simp [List.all_eq_true, List.any_eq_true, strIncludes_iff]
  unfold classify
  dsimp only
  rw [h1, h2, h3]
  simp only [Bool.or_self, Bool.false_eq_true, if_false]
  cases hall : ((analyzeWords ctx).all fun w => CASUAL_WORDS.any fun c => strIncludes w c) with
  | true =>
    rw [if_pos (by simp [h4, hall])]
    simpa using hBool.mp hall
  | false =>
    rw [if_neg (by simp [hall])]
    apply iff_of_false
    · dsimp only
      split
      · simp
      · decide
    · intro hAll
      exact absurd (hBool.mpr hAll) (by simp [hall])

/-- Witness for the amended C3 at a concrete two-token casual message. -/
theorem classify_casual_iff_contains_witness :
    ((⟨"ok thanks", "", false, false, false⟩ : GatekeeperInput).hasPhoto = false) ∧
    ((⟨"ok thanks", "", false, false, false⟩ : GatekeeperInput).hasDocument = false) ∧
    ((⟨"ok thanks", "", false, false, false⟩ : GatekeeperInput).isForwarded = false) ∧
    (analyzeWords ⟨"ok thanks", "", false, false, false⟩).length ≤ 3 ∧
    (classify ⟨"ok thanks", "", false, false, false⟩ =
        ⟨false, "Casual greeting/chat", [], Priority.skip⟩ ↔
      ∀ w ∈ analyzeWords ⟨"ok thanks", "", false, false, false⟩,
        ∃ c ∈ CASUAL_WORDS, c.data <:+: w.data) :=
  ⟨rfl, rfl, rfl, by decide,
    classify_casual_iff_contains ⟨"ok thanks", "", false, false, false⟩ rfl rfl rfl (by decide)⟩

/-- C4: the lexical matcher accepts exactly when the word equals the term,
one is a substring of the other, or both have length at least 4 and their
Levenshtein edit distance (`levRec`, the textbook unit-cost
insert/delete/substitute distance, which the source's dynamic program is
separately proven to compute) is at most
`min maxDistance ⌊0.3 * term.length⌋`; in particular strings shorter than 4
characters never reach the fuzzy branch. -/
theorem fuzzyMatchKeyword_iff (word keyword : String) (maxDistance : Nat) :
    fuzzyMatchKeyword word keyword maxDistance = true ↔
      (word = keyword ∨ keyword.data <:+: word.data ∨ word.data <:+: keyword.data ∨
        (4 ≤ word.length ∧ 4 ≤ keyword.length ∧
          levRec word.data keyword.data ≤ min maxDistance (3 * keyword.length / 10))) := by
  unfold fuzzyMatchKeyword
  by_cases hEq : word = keyword
  · simp [hEq]
  rw [if_neg hEq]
  by_cases hInc : (strIncludes word keyword || strIncludes keyword word) = true
  · rw [if_pos hInc]
    rcases Bool.or_eq_true _ _ |>.mp hInc with h | h
    · simp [strIncludes_iff.mp h]
    · simp [strIncludes_iff.mp h]
  rw [if_neg hInc]
  have hInc' := hInc
  simp only [Bool.or_eq_true, not_or, Bool.not_eq_true] at hInc'
  have hni1 : ¬ keyword.data <:+: word.data := fun h =>
    by simp [strIncludes_iff.mpr h] at hInc'
  have hni2 : ¬ word.data <:+: keyword.data := fun h =>
    by simp [strIncludes_iff.mpr h] at hInc'
  by_cases hLen : 4 ≤ word.length ∧ 4 ≤ keyword.length
  · rw [if_pos hLen]
    simp [hEq, hni1, hni2, hLen.1, hLen.2, levenshteinDistance_eq_levRec]
  · rw [if_neg hLen]
    simp only [Bool.false_eq_true, false_iff]
    rintro (h | h | h | ⟨ha, hb, _⟩)
    · exact hEq h
    · exact hni1 h
    · exact hni2 h
    · exact hLen ⟨ha, hb⟩

/-! ## Document Index: chunking never terminates -/

theorem jsLastIndexOf_lt_length (l : List Char) (c : Char) (pos : Nat) :
    jsLastIndexOf l c pos < (l.length : Int) := by
  unfold jsLastIndexOf
  cases h : ((List.range (pos + 1)).filter
      (fun i => l.getD i ' ' = c ∧ i < l.length)).getLast? with
  | none =>
    have : (0 : Int) ≤ (l.length : Int) := Int.ofNat_nonneg _
    simp only []
    omega
  | some i =>
    have hmem : i ∈ (List.range (pos + 1)).filter
        (fun i => l.getD i ' ' = c ∧ i < l.length) := List.mem_of_getLast?_eq_some h
    have hcond := (List.mem_filter.mp hmem).2
    simp only [decide_eq_true_eq] at hcond
    simp only []
    exact_mod_cast hcond.2

theorem chunkEndOf_le (text : List Char) (chunkSize : Int) (start : Int) :
    chunkEndOf text chunkSize start ≤ (text.length : Int) := by
  unfold chunkEndOf
  dsimp only
  split
  · split
    · have h1 := jsLastIndexOf_lt_length text '.'
        (min (start + chunkSize) (text.length : Int)).toNat
      have h2 := jsLastIndexOf_lt_length text '\n'
        (min (start + chunkSize) (text.length : Int)).toNat
      omega
    · exact min_le_right _ _
  · exact min_le_right _ _

theorem chunkLoop_eq_none (text : List Char) (chunkSize overlap : Int)
    (hov : 0 < overlap) :
    ∀ (fuel : Nat) (start : Int) (acc : List (List Char)),
      start < (text.length : Int) →
      chunkLoop text chunkSize overlap fuel start acc = none := by
  intro fuel
  induction fuel with
  | zero => intro start acc _; rfl
  | succ n ih =>
    intro start acc h
    rw [chunkLoop, if_pos h]
    apply ih
    have := chunkEndOf_le text chunkSize start
    omega

/-- C1 (the code, run on the claimed input, never terminates): for every
non-empty input text — in particular any 1200-character text — and every
amount of fuel, `chunkText` with target size 500 and overlap 100 is still
looping: each iteration sets `start := chunkEnd - 100` with
`chunkEnd ≤ text.length`, so the loop guard `start < text.length` holds
forever and no chunk list is ever returned. -/
theorem chunkText_diverges (fuel : Nat) (text : String) (h : 0 < text.length) :
    chunkText fuel text 500 100 = none := by
  unfold chunkText
  rw [chunkLoop_eq_none text.data 500 100 (by norm_num) fuel 0 []
    (by exact_mod_cast h)]
  rfl

/-- Witness for C1 at a concrete non-empty text. -/
theorem chunkText_diverges_witness :
    0 < ("abc" : String).length ∧ chunkText 7 "abc" 500 100 = none :=
  ⟨by decide, chunkText_diverges 7 "abc" (by decide)⟩

/-! ## Evidence-source theorems -/

/-- C2 (counterexample): the video-content evidence source does *not* return
an empty non-throwing result on missing credentials — its missing-key check
sits before the `try` block and throws. -/
theorem youtube_missing_key_throws :
    youtubeExecute none (some "dQw4w9WgXcQ") (Except.ok []) (Except.error "network")
      = Except.error "YOUTUBE_API_KEY is missing in .env file" := rfl

/-- C2 (amended): with missing credentials, the general web search and the
scoped official-domain search both return the empty `found = false` result
without throwing (they are total functions of the modelled environment),
while the video-content verification tool instead escapes with the
missing-key exception. -/
theorem evidenceSources_missing_credentials (query : String) (uni : UniversityKind)
    (r1 : Except String (List ExaRawResult)) (r2 : Except String (List UniRawResult))
    (vid : Option String) (api : Except String (List YoutubeSnippet))
    (tr : Except String String) :
    exaSearchExecute none query r1 = ⟨[], false, query⟩ ∧
    universitySearchExecute none uni r2 = ⟨[], false, []⟩ ∧
    youtubeExecute none vid api tr
      = Except.error "YOUTUBE_API_KEY is missing in .env file" :=
  ⟨rfl, rfl, rfl⟩

/-! ## Verification-log theorems -/

/-- C9 (counterexample): when the log file cannot be written, the returned
result still reports `logged = true` — the failure is not reflected in the
operation's result. -/
theorem logVerification_failed_write_reports_success :
    (logVerificationExecute (Except.ok (some [])) (Except.error "EACCES: permission denied")
      "2025-01-01T00:00:00.000Z" "exam cancelled" Verdict.HOAX [] 90).logged = true := rfl

/-- C9 (amended): the log-append operation never raises, whatever the read
and write faults — it is a total function of the modelled filesystem — and
it always returns `logged = true`; a failed write is only swallowed
(console-logged in the source), never reflected in the result. -/
theorem logVerification_total_logged_true
    (disk : Except String (Option (List VerificationLogEntry)))
    (writeResult : Except String Unit) (now claim : String) (verdict : Verdict)
    (sources : List String) (confidence : ℚ) :
    (logVerificationExecute disk writeResult now claim verdict sources confidence).logged
      = true := rfl

theorem wsTokensAux_ne_nil_of_cur (l : List Char) (cur : List Char) (h : cur ≠ []) :
    wsTokensAux l cur ≠ [] := by
  induction l generalizing cur with
  | nil =>
    unfold wsTokensAux
    rw [if_neg (by simpa [List.isEmpty_iff] using h)]
    simp
  | cons c rest ih =>
    unfold wsTokensAux
    split
    · rw [if_neg (by simpa [List.isEmpty_iff] using h)]
      simp
    · exact ih (c :: cur) (by simp)

theorem jsWsSplit_ne_nil (s : String) : jsWsSplit s ≠ [] := by
  unfold jsWsSplit
  cases hd : s.data with
  | nil => simp
  | cons c rest =>
    dsimp only
    by_cases hws : c.isWhitespace
    · rw [if_pos hws]
      split <;> simp
    · rw [if_neg hws]
      have hcore : wsTokensAux (c :: rest) [] ≠ [] := by
        unfold wsTokensAux
        rw [if_neg hws]
        exact wsTokensAux_ne_nil_of_cur rest [c] (by simp)
      split
      · simp
      · exact hcore

theorem logCalculateSimilarity_den_pos (a b : String) :
    0 < (logCalculateSimilarity a b).den := by
  unfold logCalculateSimilarity
  dsimp only
  have h1 : (jsWsSplit a).dedup ≠ [] := by
    simpa [List.dedup_eq_nil] using jsWsSplit_ne_nil a
  have := List.length_pos.mpr h1
  omega

/-- Value form of the cross-multiplication strict comparison. -/
theorem Frac.blt_iff_val {x y : Frac} (hx : 0 < x.den) (hy : 0 < y.den) :
    x.blt y = true ↔ x.val < y.val := by
  unfold Frac.blt Frac.val
  rw [decide_eq_true_eq,
    div_lt_div_iff₀ (by exact_mod_cast hx) (by exact_mod_cast hy)]
  constructor <;> intro h <;> exact_mod_cast h

/-- C8: provided the fresh timestamp differs from every prior entry's
timestamp (the code excludes the just-appended entry by timestamp
comparison), the reported similar past cases are exactly the prior entries
whose token-set similarity to the new claim exceeds 0.5, limited to the
most recent five, in log (recency) order. -/
theorem logVerification_similarPastCases
    (disk : Except String (Option (List VerificationLogEntry)))
    (writeResult : Except String Unit) (now claim : String) (verdict : Verdict)
    (sources : List String) (confidence : ℚ)
    (h : ∀ l ∈ loadLearningLog disk, l.timestamp ≠ now) :
    (logVerificationExecute disk writeResult now claim verdict
        sources confidence).similarPastCases
      = findSimilarSpec (loadLearningLog disk) claim := by
  unfold logVerificationExecute findSimilarSpec
  dsimp only
  have hfil :
      (loadLearningLog disk ++
          [(⟨now, claim, verdict, sources, confidence, none, none⟩ : VerificationLogEntry)]).filter
          (fun log =>
            Frac.blt ⟨1, 2⟩ (logCalculateSimilarity (jsToLower claim) (jsToLower log.claim)) &&
              log.timestamp != now)
        = (loadLearningLog disk).filter (fun log =>
            decide ((1 : ℚ) / 2
              < (logCalculateSimilarity (jsToLower claim) (jsToLower log.claim)).val)) := by
    rw [List.filter_append]
    have hnew :
        (([(⟨now, claim, verdict, sources, confidence, none, none⟩ : VerificationLogEntry)]).filter
          (fun log =>
            Frac.blt ⟨1, 2⟩ (logCalculateSimilarity (jsToLower claim) (jsToLower log.claim)) &&
              log.timestamp != now)) = [] := by
      simp [List.filter]
    rw [hnew, List.append_nil]
    apply List.filter_congr
    intro l hl
    have hts : (l.timestamp != now) = true := by
      simpa using h l hl
    rw [hts, Bool.and_true]
    rw [Bool.eq_iff_iff]
    rw [Frac.blt_iff_val (by norm_num)
      (logCalculateSimilarity_den_pos (jsToLower claim) (jsToLower l.claim))]
    rw [decide_eq_true_eq]
    have : (Frac.mk 1 2).val = (1 : ℚ) / 2 := by
      unfold Frac.val
      norm_num
    rw [this]
  rw [hfil]

/-- Witness for C8 at a concrete log and claim. -/
theorem logVerification_similarPastCases_witness :
    (∀ l ∈ loadLearningLog
        (Except.ok (some [⟨"t1", "exam postponed now", Verdict.HOAX, [], 80, none, none⟩])),
      l.timestamp ≠ "t2") ∧
    (logVerificationExecute
        (Except.ok (some [⟨"t1", "exam postponed now", Verdict.HOAX, [], 80, none, none⟩]))
        (Except.ok ()) "t2" "exam postponed today" Verdict.HOAX [] 90).similarPastCases
      = findSimilarSpec
          [⟨"t1", "exam postponed now", Verdict.HOAX, [], 80, none, none⟩]
          "exam postponed today" :=
  ⟨by decide,
    logVerification_similarPastCases
      (Except.ok (some [⟨"t1", "exam postponed now", Verdict.HOAX, [], 80, none, none⟩]))
      (Except.ok ()) "t2" "exam postponed today" Verdict.HOAX [] 90 (by decide)⟩

/-! ## Similarity scoring: failure of symmetry, symmetry of the raw count -/

theorem length_filter_eq_sum_map (l : List α) (p : α → Bool) :
    (l.filter p).length = (l.map (fun u => if p u then 1 else 0)).sum := by
  induction l with
  | nil => rfl
  | cons x xs ih =>
    by_cases h : p x <;> simp [List.filter_cons, h, ih, Nat.add_comm]

theorem sum_map_eq_sum_toFinset (l : List String) (f : String → ℕ) (h : l.Nodup) :
    (l.map f).sum = ∑ t ∈ l.toFinset, f t := by
  induction l with
  | nil => simp
  | cons x xs ih =>
    obtain ⟨hx, hxs⟩ := List.nodup_cons.mp h
    rw [List.map_cons, List.sum_cons, List.toFinset_cons,
      Finset.sum_insert (by simpa using hx), ih hxs]

theorem contains_eq_decide_mem (l : List String) (t : String) :
    l.contains t = decide (t ∈ l) := by
  simp [List.contains]

theorem tokenSet_nodup (s : String) : (tokenSet s).Nodup := List.nodup_dedup _

theorem matchCount2_symm (a b : String) : matchCount2 a b = matchCount2 b a := by
  have hsummand : ∀ (S : List String) (t : String), S.Nodup →
      ((if S.contains t then 2 else 0) +
          (S.filter (fun d => strIncludes d t || strIncludes t d)).length)
        = ((if t ∈ S.toFinset then 2 else 0) +
            ∑ u ∈ S.toFinset, (if strIncludes u t || strIncludes t u then 1 else 0)) := by
    intro S t hS
    rw [length_filter_eq_sum_map, sum_map_eq_sum_toFinset _ _ hS,
      contains_eq_decide_mem]
    congr 1
    simp [List.mem_toFinset]
  have hside : ∀ (q d : String), matchCount2 q d
      = (∑ t ∈ (tokenSet q).toFinset, (if t ∈ (tokenSet d).toFinset then 2 else 0)) +
          ∑ t ∈ (tokenSet q).toFinset, ∑ u ∈ (tokenSet d).toFinset,
            (if strIncludes u t || strIncludes t u then 1 else 0) := by
    intro q d
    unfold matchCount2
    dsimp only
    rw [sum_map_eq_sum_toFinset _ _ (tokenSet_nodup q)]
    rw [Finset.sum_congr rfl (fun t _ => hsummand (tokenSet d) t (tokenSet_nodup d))]
    rw [Finset.sum_add_distrib]
  rw [hside a b, hside b a]
  congr 1
  · rw [Finset.sum_ite_mem, Finset.sum_ite_mem, Finset.inter_comm]
  · rw [Finset.sum_comm]
    apply Finset.sum_congr rfl
    intro u _
    apply Finset.sum_congr rfl
    intro t _
    rw [Bool.or_comm]

/-- C6 (counterexample): the chunk-scoring heuristic is not symmetric — it
normalizes by the query's distinct-token count only.  With
`a = "alpha beta"` and `b = "alpha"` the two orders give 3/4 and 3/2. -/
theorem calculateSimilarity_not_symmetric :
    ¬ ((calculateSimilarity "alpha beta" "alpha").val
        = (calculateSimilarity "alpha" "alpha beta").val) := by
  have h1 : calculateSimilarity "alpha beta" "alpha" = ⟨3, 4⟩ := by decide
  have h2 : calculateSimilarity "alpha" "alpha beta" = ⟨3, 2⟩ := by decide
  rw [h1, h2]
  unfold Frac.val
  norm_num

/-- C6 (amended): the raw (unnormalized) match count of the scoring
heuristic is symmetric; since the score divides it by the first argument's
distinct-token count, the score itself is symmetric only after multiplying
each side back by its own normalizer:
`sim(a,b) * max(#tokens a, 1) = sim(b,a) * max(#tokens b, 1)`. -/
theorem calculateSimilarity_scaled_symm (a b : String) :
    (calculateSimilarity a b).val * ((max (tokenSet a).length 1 : Nat) : ℚ)
      = (calculateSimilarity b a).val * ((max (tokenSet b).length 1 : Nat) : ℚ) := by
  unfold calculateSimilarity Frac.val
  dsimp only
  rw [matchCount2_symm]
  have hma : (0 : ℚ) < ((max (tokenSet a).length 1 : Nat) : ℚ) := by
    exact_mod_cast Nat.lt_of_lt_of_le Nat.zero_lt_one (le_max_right _ _)
  have hmb : (0 : ℚ) < ((max (tokenSet b).length 1 : Nat) : ℚ) := by
    exact_mod_cast Nat.lt_of_lt_of_le Nat.zero_lt_one (le_max_right _ _)
  push_cast
  field_simp
  ring

/-! ## Stable descending sort: permutation, sortedness, stability -/

theorem insertDescEnd_perm (score : α → Frac) (x : α) :
    ∀ l : List α, (insertDescEnd score x l).Perm (x :: l)
  | [] => List.Perm.refl _
  | y :: ys => by
    unfold insertDescEnd
    split
    · exact List.Perm.refl _
    · exact ((insertDescEnd_perm score x ys).cons y).trans (List.Perm.swap x y ys)

theorem insertDescEnd_sorted (score : α → Frac) (x : α) :
    ∀ l : List α, 0 < (score x).den → (∀ a ∈ l, 0 < (score a).den) →
      l.Pairwise (fun u v => (score v).val ≤ (score u).val) →
      (insertDescEnd score x l).Pairwise (fun u v => (score v).val ≤ (score u).val)
  | [], hx, hl, hs => by simp [insertDescEnd]
  | y :: ys, hx, hl, hs => by
    have hy : 0 < (score y).den := hl y (by simp)
    have hys : ∀ a ∈ ys, 0 < (score a).den := fun a ha => hl a (by simp [ha])
    obtain ⟨hhead, htail⟩ := List.pairwise_cons.mp hs
    unfold insertDescEnd
    split
    · case isTrue hblt =>
      have hxy : (score y).val < (score x).val := (Frac.blt_iff_val hy hx).mp hblt
      refine List.pairwise_cons.mpr ⟨?_, hs⟩
      intro b hb
      rcases List.mem_cons.mp hb with rfl | hb
      · exact le_of_lt hxy
      · exact le_trans (hhead b hb) (le_of_lt hxy)
    · case isFalse hblt =>
      have hyx : (score x).val ≤ (score y).val :=
        le_of_not_lt (fun hc => hblt ((Frac.blt_iff_val hy hx).mpr hc))
      refine List.pairwise_cons.mpr ⟨?_, insertDescEnd_sorted score x ys hx hys htail⟩
      intro b hb
      rcases List.mem_cons.mp ((insertDescEnd_perm score x ys).mem_iff.mp hb) with rfl | h
      · exact hyx
      · exact hhead b h

theorem insertDescEnd_filter (score : α → Frac) (x : α) (q : ℚ) :
    ∀ l : List α, 0 < (score x).den → (∀ a ∈ l, 0 < (score a).den) →
      l.Pairwise (fun u v => (score v).val ≤ (score u).val) →
      (insertDescEnd score x l).filter (fun a => decide ((score a).val = q))
        = l.filter (fun a => decide ((score a).val = q))
            ++ (if (score x).val = q then [x] else [])
  | [], hx, hl, hs => by
    simp only [insertDescEnd, List.filter_nil, List.nil_append]
    by_cases hq : (score x).val = q <;> simp [hq]
  | y :: ys, hx, hl, hs => by
    have hy : 0 < (score y).den := hl y (by simp)
    have hys : ∀ a ∈ ys, 0 < (score a).den := fun a ha => hl a (by simp [ha])
    obtain ⟨hhead, htail⟩ := List.pairwise_cons.mp hs
    unfold insertDescEnd
    split
    · case isTrue hblt =>
      have hxy : (score y).val < (score x).val := (Frac.blt_iff_val hy hx).mp hblt
      by_cases hq : (score x).val = q
      · have hnone : ((y :: ys).filter (fun a => decide ((score a).val = q))) = [] := by
          rw [List.filter_eq_nil_iff]
          intro b hb
          have hble : (score b).val ≤ (score y).val := by
            rcases List.mem_cons.mp hb with rfl | hb'
            · exact le_refl _
            · exact hhead b hb'
          simp only [decide_eq_true_eq]
          intro hbq
          exact absurd (hbq ▸ (lt_of_le_of_lt hble hxy)) (by rw [hq]; exact lt_irrefl q)
        rw [List.filter_cons_of_pos (by simpa using hq), hnone]
        simp [hq]
      · rw [List.filter_cons_of_neg (by simpa using hq)]
        simp [hq]
    · case isFalse hblt =>
      have ihys := insertDescEnd_filter score x q ys hx hys htail
      by_cases hqy : (score y).val = q
      · rw [List.filter_cons_of_pos (by simpa using hqy),
          List.filter_cons_of_pos (by simpa using hqy), ihys, List.cons_append]
      · rw [List.filter_cons_of_neg (by simpa using hqy),
          List.filter_cons_of_neg (by simpa using hqy), ihys]

theorem sortByScoreDesc_spec (score : α → Frac) (l : List α)
    (hl : ∀ a ∈ l, 0 < (score a).den) :
    (sortByScoreDesc score l).Perm l ∧
    (sortByScoreDesc score l).Pairwise (fun u v => (score v).val ≤ (score u).val) ∧
    ∀ q : ℚ, (sortByScoreDesc score l).filter (fun a => decide ((score a).val = q))
        = l.filter (fun a => decide ((score a).val = q)) := by
  suffices H : ∀ (l acc : List α), (∀ a ∈ l, 0 < (score a).den) →
      (∀ a ∈ acc, 0 < (score a).den) →
      acc.Pairwise (fun u v => (score v).val ≤ (score u).val) →
      (l.foldl (fun a x => insertDescEnd score x a) acc).Perm (acc ++ l) ∧
      (l.foldl (fun a x => insertDescEnd score x a) acc).Pairwise
        (fun u v => (score v).val ≤ (score u).val) ∧
      ∀ q : ℚ, (l.foldl (fun a x => insertDescEnd score x a) acc).filter
            (fun a => decide ((score a).val = q))
          = acc.filter (fun a => decide ((score a).val = q))
              ++ l.filter (fun a => decide ((score a).val = q)) by
    obtain ⟨P1, P2, P3⟩ := H l [] hl (by simp) (by simp)
    exact ⟨by simpa using P1, P2, fun q => by simpa using P3 q⟩
  intro l
  induction l with
  | nil =>
    intro acc _ _ hsort
    exact ⟨by simp, hsort, fun q => by simp⟩
  | cons x xs ih =>
    intro acc hlpos haccpos haccsort
    rw [List.foldl_cons]
    have hxpos : 0 < (score x).den := hlpos x (by simp)
    have hxspos : ∀ a ∈ xs, 0 < (score a).den := fun a ha => hlpos a (by simp [ha])
    have hinspos : ∀ a ∈ insertDescEnd score x acc, 0 < (score a).den := by
      intro a ha
      rcases List.mem_cons.mp ((insertDescEnd_perm score x acc).mem_iff.mp ha) with rfl | h
      · exact hxpos
      · exact haccpos a h
    have hinssort := insertDescEnd_sorted score x acc hxpos haccpos haccsort
    obtain ⟨P1, P2, P3⟩ := ih (insertDescEnd score x acc) hxspos hinspos hinssort
    refine ⟨?_, P2, ?_⟩
    · refine P1.trans ?_
      refine (((insertDescEnd_perm score x acc).append_right xs).trans ?_)
      exact (List.perm_middle).symm
    · intro q
      rw [P3 q, insertDescEnd_filter score x q acc hxpos haccpos haccsort]
      rw [List.append_assoc]
      congr 1
      by_cases hq : (score x).val = q
      · rw [List.filter_cons_of_pos (by simpa using hq)]
        simp [hq]
      · rw [List.filter_cons_of_neg (by simpa using hq)]
        simp [hq]

/-! ## Document Index query: the C5 bundle -/

theorem calculateSimilarity_den_pos (q d : String) :
    0 < (calculateSimilarity q d).den := by
  unfold calculateSimilarity
  dsimp only
  have : 1 ≤ max (tokenSet q).length 1 := le_max_right _ _
  omega

theorem roundTo2_val (x : Frac) (hx : 0 < x.den) :
    (roundTo2 x).val = ((round (x.val * 100) : ℤ) : ℚ) / 100 := by
  unfold roundTo2 Frac.val
  dsimp only
  have hd : ((x.den : ℚ)) ≠ 0 := by
    exact_mod_cast hx.ne'
  have harg : (x.num : ℚ) / (x.den : ℚ) * 100 + 1 / 2
      = ((200 * x.num + x.den : ℕ) : ℚ) / ((2 * x.den : ℕ) : ℚ) := by
    push_cast
    field_simp
    ring
  rw [round_eq, harg]
  have h1 : ((200 * x.num + x.den) / (2 * x.den) : ℕ)
      = ⌊((200 * x.num + x.den : ℕ) : ℚ) / ((2 * x.den : ℕ) : ℚ)⌋₊ := by
    rw [Nat.floor_div_nat, Nat.floor_natCast]
  have hnn : (0 : ℚ) ≤ ((200 * x.num + x.den : ℕ) : ℚ) / ((2 * x.den : ℕ) : ℚ) := by
    positivity
  rw [h1, ← Int.natCast_floor_eq_floor hnn]
  push_cast
  rfl

theorem val_one_tenth : (Frac.mk 1 10).val = (1 : ℚ) / 10 := by
  unfold Frac.val
  norm_num

/-- C5: over any already-initialized index, the query path scores every
chunk, and there is a sorted arrangement of the scored chunks — descending
by score, a permutation of them, with every score-class kept in original
order (stability) — such that the output is exactly the first
`topK` (`topK || 3`) of it with scores rounded to two decimals
(`(roundTo2 s).val = round (s.val * 100) / 100`), `totalDocuments` is the
chunk count, and `hasRelevantResults` holds if and only if some indexed
chunk scores strictly above 0.1. -/
theorem ragQuery_spec (chunks : List DocumentChunk) (query : String) (topK : Nat) :
    (ragQuery chunks query topK).totalDocuments = chunks.length ∧
    (sortByScoreDesc Prod.snd (scoreChunks chunks query)).Perm (scoreChunks chunks query) ∧
    (sortByScoreDesc Prod.snd (scoreChunks chunks query)).Pairwise
      (fun u v => (v.2).val ≤ (u.2).val) ∧
    (∀ q : ℚ, (sortByScoreDesc Prod.snd (scoreChunks chunks query)).filter
          (fun p => decide ((p.2).val = q))
        = (scoreChunks chunks query).filter (fun p => decide ((p.2).val = q))) ∧
    (ragQuery chunks query topK).results
      = ((sortByScoreDesc Prod.snd (scoreChunks chunks query)).take
          (if topK = 0 then 3 else topK)).map
          (fun p => ⟨p.1.content, p.1.source, roundTo2 p.2⟩) ∧
    ((ragQuery chunks query topK).hasRelevantResults = true
      ↔ ∃ p ∈ scoreChunks chunks query, (1 : ℚ) / 10 < (p.2).val) ∧
    (∀ p ∈ scoreChunks chunks query,
      (roundTo2 p.2).val = ((round ((p.2).val * 100) : ℤ) : ℚ) / 100) := by
  have hpos : ∀ p ∈ scoreChunks chunks query, 0 < (Prod.snd p).den := by
    intro p hp
    obtain ⟨c, _, rfl⟩ := List.mem_map.mp hp
    exact calculateSimilarity_den_pos query c.content
  obtain ⟨hperm, hsorted, hstable⟩ :=
    sortByScoreDesc_spec Prod.snd (scoreChunks chunks query) hpos
  have hround : ∀ p ∈ scoreChunks chunks query,
      (roundTo2 p.2).val = ((round ((p.2).val * 100) : ℤ) : ℚ) / 100 :=
    fun p hp => roundTo2_val p.2 (hpos p hp)
  by_cases hnil : chunks.length = 0
  · rw [List.length_eq_zero] at hnil
    subst hnil
    refine ⟨rfl, hperm, hsorted, hstable, ?_, ?_, hround⟩
    · simp [ragQuery, scoreChunks, sortByScoreDesc]
    · simp [ragQuery, scoreChunks]
  · have hragdef : ragQuery chunks query topK
        = ⟨((sortByScoreDesc Prod.snd (scoreChunks chunks query)).take
              (if topK = 0 then 3 else topK)).map
            (fun p => ⟨p.1.content, p.1.source, roundTo2 p.2⟩),
           chunks.length,
           ((sortByScoreDesc Prod.snd (scoreChunks chunks query)).take
              (if topK = 0 then 3 else topK)).any
            (fun p => Frac.blt ⟨1, 10⟩ p.2)⟩ := by
      unfold ragQuery
      rw [if_neg hnil]
    refine ⟨by rw [hragdef], hperm, hsorted, hstable, by rw [hragdef], ?_, hround⟩
    rw [hragdef]
    dsimp only
    rw [List.any_eq_true]
    constructor
    · rintro ⟨p, hpmem, hpblt⟩
      have hpsorted : p ∈ sortByScoreDesc Prod.snd (scoreChunks chunks query) :=
        List.mem_of_mem_take hpmem
      have hpscored : p ∈ scoreChunks chunks query := hperm.mem_iff.mp hpsorted
      refine ⟨p, hpscored, ?_⟩
      have := (Frac.blt_iff_val (x := ⟨1, 10⟩) (by norm_num) (hpos p hpscored)).mp hpblt
      rwa [val_one_tenth] at this
    · rintro ⟨p, hpscored, hpgt⟩
      have hpsorted : p ∈ sortByScoreDesc Prod.snd (scoreChunks chunks query) :=
        hperm.mem_iff.mpr hpscored
      obtain ⟨h, t, hht⟩ : ∃ h t, sortByScoreDesc Prod.snd (scoreChunks chunks query)
          = h :: t := by
        cases hsd : sortByScoreDesc Prod.snd (scoreChunks chunks query) with
        | nil =>
          rw [hsd] at hpsorted
          exact absurd hpsorted (List.not_mem_nil p)
        | cons h t => exact ⟨h, t, rfl⟩
      have hhead_ge : ∀ r ∈ sortByScoreDesc Prod.snd (scoreChunks chunks query),
          (r.2).val ≤ (h.2).val := by
        intro r hr
        rw [hht] at hr hsorted
        rcases List.mem_cons.mp hr with rfl | hr'
        · exact le_refl _
        · exact (List.pairwise_cons.mp hsorted).1 r hr'
      have hhgt : (1 : ℚ) / 10 < (h.2).val :=
        lt_of_lt_of_le hpgt (hhead_ge p hpsorted)
      have hhscored : h ∈ scoreChunks chunks query :=
        hperm.mem_iff.mp (by rw [hht]; simp)
      refine ⟨h, ?_, ?_⟩
      · rw [hht]
        have hk : 0 < (if topK = 0 then 3 else topK) := by
          split <;> omega
        cases hk' : (if topK = 0 then 3 else topK) with
        | zero => omega
        | succ n => simp [List.take_succ_cons]
      · rw [(Frac.blt_iff_val (x := ⟨1, 10⟩) (by norm_num) (hpos h hhscored)),
          val_one_tenth]
        exact hhgt

end HubGuard
